import Mathlib

/-!
Verification of the `dirtree` directory-tree generator (`src/index.ts`).

The development shallowly embeds the two core components of the program:

* the pattern matcher: `createRegexFromPattern` (src/index.ts:131-139) turns a
  glob-lite ignore rule into a JavaScript regular expression by three global
  string replacements (`.` -> `\.`, `*` -> `.*`, `?` -> `.`) and anchoring with
  `^`/`$`; `shouldIgnore` (src/index.ts:141-146) tests an entry name and the
  base name of its path against every compiled rule;

* the tree walker: `generateTree` (src/index.ts:148-208) recursively lists a
  directory, filters ignored entries, sorts directories before files with
  `localeCompare` inside each group, renders one connector line per entry and
  recurses into subdirectories with an extended prefix, bounded by a depth
  ceiling of 50, converting listing failures into an inline marker line.

JavaScript platform semantics that the source relies on are modelled
explicitly: `parseRe` models the fragment of the ECMAScript `RegExp` pattern
grammar reachable from the strings this program can build (literals, identity
escapes `\c`, `.`, the quantifiers `*` `+` `?`, groups `(...)`, character
classes `[...]`, alternation `|`, and the `^`/`$` assertions); `new RegExp`
raising a `SyntaxError` is modelled by the parser returning `Except.error`.
Braces that do not form a quantifier and lone `]` are treated as literal
characters (Annex B behaviour); the brace quantifier form `a{n,m}` is outside
the modelled fragment, and every theorem below quantifies only over pattern
alphabets that cannot produce it.  `RegExp.prototype.test` is modelled by
`rtest`: true iff the pattern matches starting at some index of the candidate.
The flag-less Dot atom excludes the line terminators (`\n`, `\r`, U+2028,
U+2029), as `Regex.ends` records.  One remaining deliberate abstraction: the
model walks Unicode scalar values where a flag-less JS regex walks UTF-16 code
units, so a Dot consumes a whole astral character that JS would treat as two
code units; every candidate-quantifying theorem below therefore restricts
candidates to characters of the Basic Multilingual Plane, on which the two
walks coincide.
-/

/-! ## Pattern translation (src/index.ts:131-139)

`createRegexFromPattern` performs three sequential global replacements on the
pattern string; each replaces a single character by a short string, so each is
a `flatMap` over the characters. -/

/-- First replacement of `createRegexFromPattern`: every `.` becomes `\.`. -/
def escapeDots (cs : List Char) : List Char :=
  cs.flatMap fun c => if c = '.' then ['\\', '.'] else [c]

/-- Second replacement of `createRegexFromPattern`: every `*` becomes `.*`. -/
def expandStars (cs : List Char) : List Char :=
  cs.flatMap fun c => if c = '*' then ['.', '*'] else [c]

/-- Third replacement of `createRegexFromPattern`: every `?` becomes `.`. -/
def expandQMarks (cs : List Char) : List Char :=
  cs.flatMap fun c => if c = '?' then ['.'] else [c]

/-- The composed translation `pattern.replace(/\./g,'\\.').replace(/\*/g,'.*').replace(/\?/g,'.')`. -/
def translatePattern (cs : List Char) : List Char :=
  expandQMarks (expandStars (escapeDots cs))

/-! ## A model of the ECMAScript regular-expression fragment -/

/-- One item of a character class `[...]`: a single character or a range. -/
inductive ClassItem where
  | single (c : Char)
  | range (lo hi : Char)
deriving DecidableEq

/-- Abstract syntax of the regular-expression fragment produced by
`new RegExp` on the strings this program builds. Capturing groups do not
affect `test`, so a group is represented by its body. -/
inductive Regex where
  | eps
  | char (c : Char)
  | any
  | bol
  | eol
  | cls (neg : Bool) (items : List ClassItem)
  | cat (r1 r2 : Regex)
  | alt (r1 r2 : Regex)
  | star (r : Regex)
  | plus (r : Regex)
  | opt (r : Regex)
deriving DecidableEq

/-- Does character `c` match one class item (ranges by code point)? -/
def classItemMatch (c : Char) : ClassItem → Bool
  | .single x => decide (c = x)
  | .range lo hi => decide (lo ≤ c) && decide (c ≤ hi)

/-- Does character `c` match the character class with negation flag `neg`? -/
def classMatch (neg : Bool) (items : List ClassItem) (c : Char) : Bool :=
  if neg then !(items.any (classItemMatch c)) else items.any (classItemMatch c)

/-- The ECMAScript line terminators, which a flag-less Dot (`.`) does not
match. -/
def isLineTerminator (c : Char) : Bool :=
  c = '\n' || c = '\r' || c = '\u2028' || c = '\u2029'

/-- Bounded iteration for `star`: all positions reachable from `i` by zero or
more repetitions of the body, each repetition consuming at least one character
(an ECMAScript repetition that matches the empty string ends the loop, so for
existence of a match only strictly advancing repetitions matter). -/
def iterStar (f : Nat → List Nat) : Nat → Nat → List Nat
  | 0, i => [i]
  | fuel + 1, i => i :: ((f i).filter (fun j => i < j)).flatMap (iterStar f fuel)

/-- All end positions of a match of the regex starting at position `i` of the
candidate `cs`. The assertions `^`/`$` consult the absolute position. -/
def Regex.ends (cs : List Char) : Regex → Nat → List Nat
  | .eps, i => [i]
  | .char c, i =>
      if h : i < cs.length then (if cs[i] = c then [i + 1] else []) else []
  | .any, i =>
      if h : i < cs.length then
        (if isLineTerminator cs[i] then [] else [i + 1]) else []
  | .bol, i => if i = 0 then [i] else []
  | .eol, i => if i = cs.length then [i] else []
  | .cls neg items, i =>
      if h : i < cs.length then
        (if classMatch neg items cs[i] then [i + 1] else []) else []
  | .cat r1 r2, i => (Regex.ends cs r1 i).flatMap (Regex.ends cs r2)
  | .alt r1 r2, i => Regex.ends cs r1 i ++ Regex.ends cs r2 i
  | .star r, i => iterStar (Regex.ends cs r) (cs.length + 1) i
  | .plus r, i => (Regex.ends cs r i).flatMap (iterStar (Regex.ends cs r) (cs.length + 1))
  | .opt r, i => i :: Regex.ends cs r i

/-- Model of `RegExp.prototype.test`: true iff the regex matches starting at
some index of the candidate (the program's regexes are `^`-anchored, which
forces that index to 0). Positions index Unicode scalar values; the theorems
that quantify over candidates restrict them to the Basic Multilingual Plane,
where this coincides with the UTF-16 code-unit walk of a flag-less JS regex. -/
def rtest (r : Regex) (cs : List Char) : Bool :=
  (List.range (cs.length + 1)).any fun i => !(Regex.ends cs r i).isEmpty

/-! ## Parsing the regex source (model of `new RegExp`) -/

/-- Parse the items of a character class after `[` (and after an optional
leading `^`), up to the closing `]`. Identity escapes only; an unterminated
class is a syntax error, as in ECMAScript. -/
def parseClassItems : List Char → Except String (List ClassItem × List Char)
  | [] => .error "Unterminated character class"
  | ']' :: rest => .ok ([], rest)
  | '\\' :: [] => .error "Unterminated character class"
  | '\\' :: e :: rest =>
      match parseClassItems rest with
      | .ok p => .ok (.single e :: p.1, p.2)
      | .error err => .error err
  | a :: '-' :: b :: rest =>
      if b = ']' then .ok ([.single a, .single '-'], rest)
      else
        match parseClassItems rest with
        | .ok p => .ok (.range a b :: p.1, p.2)
        | .error err => .error err
  | a :: rest =>
      match parseClassItems rest with
      | .ok p => .ok (.single a :: p.1, p.2)
      | .error err => .error err

/-- Parse a whole character class body after `[`. -/
def parseClass (input : List Char) : Except String (Bool × List ClassItem × List Char) :=
  match input with
  | '^' :: rest =>
      match parseClassItems rest with
      | .ok p => .ok (true, p.1, p.2)
      | .error err => .error err
  | _ =>
      match parseClassItems input with
      | .ok p => .ok (false, p.1, p.2)
      | .error err => .error err

/-- Concatenate the accumulated sequence with the pending last atom, if any. -/
def flushA (acc : Regex) (last : Option (Regex × Bool)) : Regex :=
  match last with
  | none => acc
  | some (r, _) => .cat acc r

/-- Wrap the last atom with the quantifier character `c`. -/
def quantWrap (c : Char) (r : Regex) : Regex :=
  if c = '*' then .star r else if c = '+' then .plus r else .opt r

/-- Recursive-descent parser for the modelled ECMAScript pattern fragment.
Arguments: remaining fuel (strictly more than the calls that will be made, at
least input length plus one suffices), current group nesting depth, the
sequence parsed so far, the pending last atom together with a flag telling
whether a quantifier may attach to it (assertions and already-quantified atoms
refuse a quantifier: `a**` is `Nothing to repeat`), and the remaining input.
Stops at end of input or, inside a group, in front of the closing paren. -/
def parseRe : Nat → Nat → Regex → Option (Regex × Bool) → List Char →
    Except String (Regex × List Char)
  | 0, _, _, _, _ => .error "Fuel exhausted"
  | fuel + 1, depth, acc, last, input =>
    match input with
    | [] => if depth = 0 then .ok (flushA acc last, []) else .error "Unterminated group"
    | c :: rest =>
      if c = ')' then
        if depth = 0 then .error "Unmatched close-paren"
        else .ok (flushA acc last, c :: rest)
      else if c = '|' then
        match parseRe fuel depth .eps none rest with
        | .ok p => .ok (.alt (flushA acc last) p.1, p.2)
        | .error e => .error e
      else if c = '^' then
        parseRe fuel depth (flushA acc last) (some (.bol, false)) rest
      else if c = '$' then
        parseRe fuel depth (flushA acc last) (some (.eol, false)) rest
      else if c = '.' then
        parseRe fuel depth (flushA acc last) (some (.any, true)) rest
      else if c = '*' || c = '+' || c = '?' then
        match last with
        | some (r, true) => parseRe fuel depth acc (some (quantWrap c r, false)) rest
        | _ => .error "Nothing to repeat"
      else if c = '\\' then
        match rest with
        | [] => .error "Trailing backslash"
        | e :: rest2 => parseRe fuel depth (flushA acc last) (some (.char e, true)) rest2
      else if c = '(' then
        match parseRe fuel (depth + 1) .eps none rest with
        | .ok p =>
          match p.2 with
          | ')' :: rest3 => parseRe fuel depth (flushA acc last) (some (p.1, true)) rest3
          | _ => .error "Unterminated group"
        | .error e => .error e
      else if c = '[' then
        match parseClass rest with
        | .ok q => parseRe fuel depth (flushA acc last) (some (.cls q.1 q.2.1, true)) q.2.2
        | .error e => .error e
      else
        parseRe fuel depth (flushA acc last) (some (.char c, true)) rest

/-- Model of `createRegexFromPattern` (src/index.ts:131-139): translate the
glob-lite pattern, anchor with `^`/`$`, and hand the string to `new RegExp`,
whose possible `SyntaxError` is the `Except.error` case. -/
def createRegexFromPattern (pattern : String) : Except String Regex :=
  let src := '^' :: translatePattern pattern.data ++ ['$']
  match parseRe (src.length + 1) 0 .eps none src with
  | .ok p => .ok p.1
  | .error e => .error e

/-- Running one compiled ignore rule on a candidate, with a failed compilation
matching nothing; convenience wrapper used by the pattern-level theorems. -/
def patternTest (pattern candidate : String) : Bool :=
  match createRegexFromPattern pattern with
  | .ok r => rtest r candidate.data
  | .error _ => false

/-- Characters of the last `/`-separated segment: `acc` holds the current
segment reversed and is reset at each separator. -/
def basenameAux : List Char → List Char → List Char
  | [], acc => acc.reverse
  | c :: rest, acc =>
      if c = '/' then basenameAux rest [] else basenameAux rest (c :: acc)

/-- Model of Node's `path.basename` on the paths this program builds
(segments joined with `/`, each segment nonempty and free of separators):
the characters after the last separator. -/
def basename (p : String) : String :=
  String.mk (basenameAux p.data [])

/-- Model of `shouldIgnore` (src/index.ts:141-146): some compiled rule
matches the entry name or the base name of the entry path. -/
def shouldIgnore (pats : List Regex) (itemName itemPath : String) : Bool :=
  pats.any fun r => rtest r itemName.data || rtest r (basename itemPath).data

/-- Compiling a list of ignore rules in order, propagating the first failure,
as the `map` in `loadIgnorePatterns` (src/index.ts:118-129) does. -/
def compilePatterns : List String → Except String (List Regex)
  | [] => .ok []
  | p :: ps =>
    match createRegexFromPattern p, compilePatterns ps with
    | .ok r, .ok rs => .ok (r :: rs)
    | .error e, _ => .error e
    | _, .error e => .error e

/-- Model of `loadIgnorePatterns`'s catch-all: any failure while building the
pattern list leaves the program with an empty list (src/index.ts:126-128). -/
def loadedPatterns (rules : List String) : List Regex :=
  match compilePatterns rules with
  | .ok rs => rs
  | .error _ => []

/-! ## Glob-lite reference semantics (from the spec's words)

Specification-side definition, for the refinement claims: the literal `.`
matches only `.`, `*` matches zero or more of any character, `?` matches
exactly one character, all other characters match literally, anchored over
the whole candidate. -/

/-- Spec-side glob-lite matching, anchored over the whole candidate. -/
def globMatch : List Char → List Char → Bool
  | [], s => s.isEmpty
  | c :: p, s =>
    if c = '*' then
      globMatch p s ||
        (match s with
         | [] => false
         | _ :: s2 => globMatch (c :: p) s2)
    else
      match s with
      | [] => false
      | d :: s2 => (if c = '?' then true else decide (c = d)) && globMatch p s2
termination_by p s => (s.length, p.length)
decreasing_by
  all_goals simp_wf
  all_goals first
    | exact Prod.Lex.right _ (by simp [Nat.lt_succ_iff])
    | exact Prod.Lex.left _ _ (by simp)

/-- Characters to which the ECMAScript pattern grammar gives special meaning;
a pattern character outside this list always denotes itself. -/
def jsMeta : List Char := ['\\', '^', '$', '.', '*', '?', '+', '(', ')', '[', ']', '\x7b', '\x7d', '|']

/-- Pattern characters covered by the refinement theorems: the three specially
translated characters, or characters with no regex metacharacter role. -/
def GoodChar (c : Char) : Prop := c = '.' ∨ c = '*' ∨ c = '?' ∨ c ∉ jsMeta

instance : DecidablePred GoodChar := fun c => by
  unfold GoodChar; infer_instance

/-! ## Tree walker (src/index.ts:148-208) -/

/-- One entry returned by `fs.readdir(dirPath, withFileTypes)`: a name and a
directory flag. -/
structure DirEntry where
  name : String
  isDirectory : Bool
deriving DecidableEq

/-- A snapshot of the filesystem as the walker observes it: for each path,
either the directory listing or `none` when `readdir` throws. -/
def FileSystem := String → Option (List DirEntry)

/-- The `DirectoryItem` interface of the source (src/index.ts:7-11). -/
structure DirectoryItem where
  name : String
  path : String
  isDirectory : Bool
deriving DecidableEq

/-- Model of `path.join(dirPath, name)` for the nonempty separator-free
names the walker feeds it. -/
def pathJoin (dirPath name : String) : String :=
  dirPath ++ "/" ++ name

/-- The filter loop of `generateTree` (src/index.ts:167-179): build a
`DirectoryItem` for every listed entry and keep those `shouldIgnore` rejects. -/
def filteredItems (pats : List Regex) (dirPath : String) (items : List DirEntry) :
    List DirectoryItem :=
  (items.map fun e => DirectoryItem.mk e.name (pathJoin dirPath e.name) e.isDirectory).filter
    fun it => !shouldIgnore pats it.name it.path

/-- The sort comparator of `generateTree` (src/index.ts:182-186):
directories first, then files, ties by `localeCompare` (the abstract
comparison `lc`). -/
def itemCompare (lc : String → String → Int) (a b : DirectoryItem) : Int :=
  if a.isDirectory && !b.isDirectory then -1
  else if !a.isDirectory && b.isDirectory then 1
  else lc a.name b.name

/-- The ordering induced by the comparator: `a` may stay left of `b`. -/
def itemLE (lc : String → String → Int) (a b : DirectoryItem) : Prop :=
  itemCompare lc a b ≤ 0

instance itemLE.instDecidable (lc : String → String → Int) : DecidableRel (itemLE lc) :=
  fun a b => (inferInstance : Decidable (itemCompare lc a b ≤ 0))

/-- Model of `filteredItems.sort(comparator)`: ECMAScript `Array.prototype.sort`
must return a stable, sorted permutation when the comparator is consistent;
insertion sort is such a sort. -/
def sortedItems (lc : String → String → Int) (items : List DirectoryItem) :
    List DirectoryItem :=
  List.insertionSort (itemLE lc) items

/-- The render loop of `generateTree` (src/index.ts:188-202): one connector
line per surviving child, recursing into subdirectories through `rec` with the
extended prefix and incremented depth. -/
def renderChildren (rec : String → String → Bool → Nat → String)
    (pre : String) (depth : Nat) (items : List DirectoryItem) : String :=
  String.join (items.enum.map fun pr =>
    pre ++ (if pr.1 = items.length - 1 then "└── " else "├── ") ++
      (if pr.2.isDirectory then "📁 " else "📄 ") ++ pr.2.name ++ "\n" ++
      (if pr.2.isDirectory then
        rec pr.2.path (pre ++ (if pr.1 = items.length - 1 then "    " else "│   "))
          (decide (pr.1 = items.length - 1)) (depth + 1)
      else ""))

/-- Fuel-indexed body of `generateTree`. The fuel is always `51 - depth`, so
the zero-fuel case coincides with the source's `depth > 50` early return, and
each recursive call at `depth + 1` re-establishes the invariant. -/
def generateTreeAux (lc : String → String → Int) (pats : List Regex) (fs : FileSystem) :
    Nat → String → String → Bool → Nat → String
  | 0, _, pre, _, _ => pre ++ "└── [MAX DEPTH REACHED]\n"
  | fuel + 1, dirPath, pre, _isLast, depth =>
    if depth > 50 then pre ++ "└── [MAX DEPTH REACHED]\n"
    else
      match fs dirPath with
      | none => pre ++ "└── [ERROR: Cannot read directory]\n"
      | some items =>
          renderChildren (generateTreeAux lc pats fs fuel) pre depth
            (sortedItems lc (filteredItems pats dirPath items))

/-- Model of `generateTree` (src/index.ts:148-208). Parameters mirror the
source: directory path, accumulated prefix, the (unused) last-sibling flag and
the depth counter; additionally the abstract locale comparison `lc`, the
compiled ignore rules and the filesystem snapshot the source reaches through
`this` and `fs`. -/
def generateTree (lc : String → String → Int) (pats : List Regex) (fs : FileSystem)
    (dirPath pre : String) (isLast : Bool) (depth : Nat) : String :=
  generateTreeAux lc pats fs (51 - depth) dirPath pre isLast depth

/-- The surviving children of one directory in rendering order: the listing
filtered through the ignore rules and sorted by the comparator. -/
def treeChildren (lc : String → String → Int) (pats : List Regex) (fs : FileSystem)
    (dirPath : String) : List DirectoryItem :=
  match fs dirPath with
  | none => []
  | some items => sortedItems lc (filteredItems pats dirPath items)

/-! ## Auxiliary definitions for the theorems -/

/-- Substring containment, for statements about the rendered output. -/
def containsStr (s sub : String) : Prop :=
  sub.data <:+: s.data

instance (s sub : String) : Decidable (containsStr s sub) :=
  List.decidableInfix sub.data s.data

/-- Character-wise view of the three sequential replacements of
`createRegexFromPattern`. -/
def transChar (c : Char) : List Char :=
  if c = '.' then ['\\', '.']
  else if c = '*' then ['.', '*']
  else if c = '?' then ['.']
  else [c]

/-- The one regex term that the translation of one glob character parses to. -/
def termOf (c : Char) : Regex :=
  if c = '*' then .star .any else if c = '?' then .any else .char c

/-- The regex that `new RegExp` builds from a translated pattern whose
characters are all `GoodChar`: the parser's left-nested concatenation of the
start anchor, one term per glob character, and the end anchor. -/
def globRegexCore (p : List Char) : Regex :=
  (p.map termOf).foldl Regex.cat (Regex.cat .eps .bol)

/-- The full anchored regex for a good pattern. -/
def globRegex (p : List Char) : Regex :=
  Regex.cat (globRegexCore p) .eol

/-- End positions after matching a sequence of regexes one after another. -/
def seqEnds (cs : List Char) : List Regex → Nat → List Nat
  | [], k => [k]
  | t :: ts, k => (Regex.ends cs t k).flatMap (seqEnds cs ts)

/-- An unboundedly deep (indeed cyclic) directory structure: every path lists
a single subdirectory named `d`. -/
def chainFs : FileSystem := fun _ => some [DirEntry.mk "d" true]

/-- A directory with an unreadable subdirectory `bad` next to a readable file
`good.txt`, for the unreadable-subtree claim. -/
def fs6 : FileSystem := fun p =>
  if p = "." then some [DirEntry.mk "bad" true, DirEntry.mk "good.txt" false]
  else none

/-- The root listing of the spec's filtering example: subdirectory `src`,
files `package.json` and `README.md`, directory `node_modules`, file
`test.log`. -/
def items7 : List DirEntry :=
  [DirEntry.mk "src" true, DirEntry.mk "package.json" false,
   DirEntry.mk "README.md" false, DirEntry.mk "node_modules" true,
   DirEntry.mk "test.log" false]

/-- The filesystem snapshot of the spec's filtering example. -/
def fs7 : FileSystem := fun p =>
  if p = "." then some items7
  else if p = "./src" then some [DirEntry.mk "index.ts" false]
  else if p = "./node_modules" then some [DirEntry.mk "junk.js" false]
  else none

/-- The compiled ignore rules of the spec's filtering example. -/
def pats7 : List Regex := loadedPatterns ["node_modules", "*.log"]

/-- An empty directory at the root, for the empty-rendering claim. -/
def fsEmpty : FileSystem := fun p => if p = "." then some [] else none

/-! ## Parsing the translated pattern of a good pattern -/

theorem translatePattern_nil : translatePattern [] = [] := rfl

theorem translatePattern_cons (c : Char) (cs : List Char) :
    translatePattern (c :: cs) = transChar c ++ translatePattern cs := by
  by_cases h1 : c = '.'
  · subst h1; rfl
  · by_cases h2 : c = '*'
    · subst h2; rfl
    · by_cases h3 : c = '?'
      · subst h3; rfl
      · simp [translatePattern, escapeDots, expandStars, expandQMarks, transChar,
          h1, h2, h3]

theorem parseRe_nil_ok (f : Nat) (acc : Regex) (last : Option (Regex × Bool)) :
    parseRe (f + 1) 0 acc last [] = .ok (flushA acc last, []) :=
  rfl

theorem parseRe_caret (f depth : Nat) (acc : Regex) (last : Option (Regex × Bool))
    (rest : List Char) :
    parseRe (f + 1) depth acc last ('^' :: rest) =
      parseRe f depth (flushA acc last) (some (.bol, false)) rest :=
  rfl

theorem parseRe_dollar (f depth : Nat) (acc : Regex) (last : Option (Regex × Bool))
    (rest : List Char) :
    parseRe (f + 1) depth acc last ('$' :: rest) =
      parseRe f depth (flushA acc last) (some (.eol, false)) rest :=
  rfl

theorem parseRe_dot (f depth : Nat) (acc : Regex) (last : Option (Regex × Bool))
    (rest : List Char) :
    parseRe (f + 1) depth acc last ('.' :: rest) =
      parseRe f depth (flushA acc last) (some (.any, true)) rest :=
  rfl

theorem parseRe_star_quant (f depth : Nat) (acc r : Regex) (rest : List Char) :
    parseRe (f + 1) depth acc (some (r, true)) ('*' :: rest) =
      parseRe f depth acc (some (.star r, false)) rest :=
  rfl

theorem parseRe_backslash (f depth : Nat) (acc : Regex) (last : Option (Regex × Bool))
    (e : Char) (rest : List Char) :
    parseRe (f + 1) depth acc last ('\\' :: e :: rest) =
      parseRe f depth (flushA acc last) (some (.char e, true)) rest :=
  rfl

theorem parseRe_lit (f depth : Nat) (acc : Regex) (last : Option (Regex × Bool))
    (c : Char) (rest : List Char) (h : c ∉ jsMeta) :
    parseRe (f + 1) depth acc last (c :: rest) =
      parseRe f depth (flushA acc last) (some (.char c, true)) rest := by
  simp only [jsMeta, List.mem_cons, List.not_mem_nil, or_false, not_or] at h
  obtain ⟨hbs, hcar, hdol, hdot, hstar, hq, hplus, hop, hcp, hob, hcb, hobr, hcbr, hbar⟩ := h
  simp [parseRe, hbs, hcar, hdol, hdot, hstar, hq, hplus, hop, hcp, hob, hcb, hbar]

theorem parseRe_good (p : List Char) (hp : ∀ c ∈ p, GoodChar c) :
    ∀ fuel : Nat, fuel ≥ (translatePattern p).length + 2 →
    ∀ (acc r0 : Regex) (b : Bool),
      parseRe fuel 0 acc (some (r0, b)) (translatePattern p ++ ['$']) =
        .ok (.cat ((p.map termOf).foldl Regex.cat (.cat acc r0)) .eol, []) := by
  induction p with
  | nil =>
    intro fuel hf acc r0 b
    obtain ⟨f, rfl⟩ : ∃ f, fuel = f + 2 := ⟨fuel - 2, by omega⟩
    rw [translatePattern_nil, List.nil_append, parseRe_dollar, parseRe_nil_ok]
    rfl
  | cons c p ih =>
    intro fuel hf acc r0 b
    have hc := hp c (List.mem_cons_self c p)
    have hp2 : ∀ x ∈ p, GoodChar x := fun x hx => hp x (List.mem_cons_of_mem _ hx)
    rw [translatePattern_cons, List.append_assoc]
    rw [translatePattern_cons] at hf
    by_cases h1 : c = '.'
    · subst h1
      rw [show transChar '.' = ['\\', '.'] from rfl] at hf ⊢
      simp only [List.length_append, List.length_cons, List.length_nil] at hf
      obtain ⟨f, rfl⟩ : ∃ f, fuel = f + 1 := ⟨fuel - 1, by omega⟩
      rw [List.cons_append, List.cons_append, List.nil_append, parseRe_backslash]
      simp only [flushA]
      rw [ih hp2 f (by omega) (.cat acc r0) (.char '.') true]
      rfl
    · by_cases h2 : c = '*'
      · subst h2
        rw [show transChar '*' = ['.', '*'] from rfl] at hf ⊢
        simp only [List.length_append, List.length_cons, List.length_nil] at hf
        obtain ⟨f, rfl⟩ : ∃ f, fuel = f + 2 := ⟨fuel - 2, by omega⟩
        rw [List.cons_append, List.cons_append, List.nil_append, parseRe_dot,
          parseRe_star_quant]
        simp only [flushA]
        rw [ih hp2 f (by omega) (.cat acc r0) (.star .any) false]
        rfl
      · by_cases h3 : c = '?'
        · subst h3
          rw [show transChar '?' = ['.'] from rfl] at hf ⊢
          simp only [List.length_append, List.length_cons, List.length_nil] at hf
          obtain ⟨f, rfl⟩ : ∃ f, fuel = f + 1 := ⟨fuel - 1, by omega⟩
          rw [List.cons_append, List.nil_append, parseRe_dot]
          simp only [flushA]
          rw [ih hp2 f (by omega) (.cat acc r0) .any true]
          rfl
        · have hmeta : c ∉ jsMeta := by
            rcases hc with h | h | h | h
            · exact absurd h h1
            · exact absurd h h2
            · exact absurd h h3
            · exact h
          rw [show transChar c = [c] from by simp [transChar, h1, h2, h3]] at hf ⊢
          simp only [List.length_append, List.length_cons, List.length_nil] at hf
          obtain ⟨f, rfl⟩ : ∃ f, fuel = f + 1 := ⟨fuel - 1, by omega⟩
          rw [List.cons_append, List.nil_append, parseRe_lit f 0 acc _ c _ hmeta]
          simp only [flushA]
          rw [ih hp2 f (by omega) (.cat acc r0) (.char c) true]
          simp [termOf, h2, h3]

theorem createRegexFromPattern_good (p : String) (hp : ∀ c ∈ p.data, GoodChar c) :
    createRegexFromPattern p = .ok (globRegex p.data) := by
  have hstep :
      parseRe ((translatePattern p.data).length + 2 + 1) 0 .eps none
          ('^' :: (translatePattern p.data ++ ['$'])) =
        .ok (globRegex p.data, []) := by
    rw [parseRe_caret]
    simp only [flushA]
    rw [parseRe_good p.data hp ((translatePattern p.data).length + 2) (le_refl _)
      .eps .bol false]
    rfl
  simp only [createRegexFromPattern]
  have hlen : ('^' :: translatePattern p.data ++ ['$']).length + 1 =
      (translatePattern p.data).length + 2 + 1 := by
    simp [List.length_append]
  rw [hlen, List.cons_append, hstep]

/-! ## Semantics of the parsed regex of a good pattern -/

theorem mem_ends_cat (cs : List Char) (r1 r2 : Regex) (i j : Nat) :
    j ∈ Regex.ends cs (.cat r1 r2) i ↔
      ∃ k, k ∈ Regex.ends cs r1 i ∧ j ∈ Regex.ends cs r2 k := by
  simp [Regex.ends, List.mem_flatMap]

theorem mem_ends_foldl (cs : List Char) :
    ∀ (ts : List Regex) (a : Regex) (i j : Nat),
      j ∈ Regex.ends cs (ts.foldl Regex.cat a) i ↔
        ∃ k, k ∈ Regex.ends cs a i ∧ j ∈ seqEnds cs ts k := by
  intro ts
  induction ts with
  | nil => intro a i j; simp [seqEnds]
  | cons t ts ih =>
    intro a i j
    rw [List.foldl_cons, ih]
    constructor
    · rintro ⟨k, hk, hj⟩
      rw [mem_ends_cat] at hk
      obtain ⟨m, hm, hk⟩ := hk
      exact ⟨m, hm, by simp only [seqEnds, List.mem_flatMap]; exact ⟨k, hk, hj⟩⟩
    · rintro ⟨m, hm, hj⟩
      simp only [seqEnds, List.mem_flatMap] at hj
      obtain ⟨k, hk, hj⟩ := hj
      exact ⟨k, (mem_ends_cat cs a t i k).mpr ⟨m, hm, hk⟩, hj⟩

theorem mem_iterStar_any (cs : List Char)
    (hclean : ∀ c ∈ cs, isLineTerminator c = false) :
    ∀ (fuel i j : Nat), i ≤ cs.length →
      (j ∈ iterStar (Regex.ends cs .any) fuel i ↔
        i ≤ j ∧ j ≤ cs.length ∧ j ≤ i + fuel) := by
  intro fuel
  induction fuel with
  | zero =>
    intro i j hi
    simp only [iterStar, List.mem_singleton]
    constructor
    · rintro rfl; omega
    · intro h; omega
  | succ f ih =>
    intro i j hi
    simp only [iterStar, List.mem_cons, List.mem_flatMap, List.mem_filter]
    by_cases hlt : i < cs.length
    · have hnt : isLineTerminator cs[i] = false := hclean cs[i] (List.getElem_mem hlt)
      have hends : Regex.ends cs .any i = [i + 1] := by simp [Regex.ends, hlt, hnt]
      rw [hends]
      constructor
      · rintro (rfl | ⟨k, ⟨hk1, hk2⟩, hk3⟩)
        · omega
        · simp only [List.mem_singleton] at hk1
          subst hk1
          rw [ih (i + 1) j (by omega)] at hk3
          omega
      · intro h
        by_cases hji : j = i
        · exact Or.inl hji
        · refine Or.inr ⟨i + 1, ⟨List.mem_singleton.mpr rfl, by simp⟩, ?_⟩
          rw [ih (i + 1) j (by omega)]
          omega
    · have hieq : i = cs.length := by omega
      have hends : Regex.ends cs .any i = [] := by simp [Regex.ends, hlt]
      rw [hends]
      constructor
      · rintro (rfl | ⟨a, ⟨⟨⟩, _⟩, _⟩)
        omega
      · intro h
        exact Or.inl (by omega)

theorem mem_ends_star_any (cs : List Char)
    (hclean : ∀ c ∈ cs, isLineTerminator c = false) (i j : Nat) (hi : i ≤ cs.length) :
    j ∈ Regex.ends cs (.star .any) i ↔ i ≤ j ∧ j ≤ cs.length := by
  show j ∈ iterStar (Regex.ends cs .any) (cs.length + 1) i ↔ _
  rw [mem_iterStar_any cs hclean (cs.length + 1) i j hi]
  omega

theorem globMatch_star (p : List Char) :
    ∀ s : List Char,
      (globMatch ('*' :: p) s = true ↔
        ∃ k, k ≤ s.length ∧ globMatch p (s.drop k) = true) := by
  intro s
  induction s with
  | nil =>
    simp only [globMatch, if_pos rfl, Bool.or_false]
    constructor
    · intro h; exact ⟨0, by omega, h⟩
    · rintro ⟨k, hk, h⟩
      simp only [List.length_nil, Nat.le_zero] at hk
      subst hk; exact h
  | cons d s2 ih =>
    have hstep : globMatch ('*' :: p) (d :: s2) =
        (globMatch p (d :: s2) || globMatch ('*' :: p) s2) := by
      rw [globMatch]
      simp
    rw [hstep, Bool.or_eq_true, ih]
    constructor
    · rintro (h | ⟨k, hk, h⟩)
      · exact ⟨0, by omega, h⟩
      · exact ⟨k + 1, by simp; omega, by simpa using h⟩
    · rintro ⟨k, hk, h⟩
      match k with
      | 0 => exact Or.inl (by simpa using h)
      | k + 1 => exact Or.inr ⟨k, by simp at hk; omega, by simpa using h⟩

theorem seqEnds_glob (cs : List Char)
    (hclean : ∀ c ∈ cs, isLineTerminator c = false) :
    ∀ (m : Nat) (p : List Char) (i : Nat),
      (cs.length - i) + p.length ≤ m → i ≤ cs.length →
      (cs.length ∈ seqEnds cs (p.map termOf) i ↔ globMatch p (cs.drop i) = true) := by
  intro m
  induction m with
  | zero =>
    intro p i hm hi
    have hp : p = [] := by
      cases p with
      | nil => rfl
      | cons a b => simp at hm
    subst hp
    have hieq : i = cs.length := by omega
    subst hieq
    simp [seqEnds, globMatch, List.drop_length]
  | succ m ih =>
    intro p i hm hi
    match p with
    | [] =>
      simp only [List.map_nil, seqEnds, List.mem_singleton, globMatch]
      rw [List.isEmpty_iff, List.drop_eq_nil_iff]
      omega
    | c :: p2 =>
      by_cases hstar : c = '*'
      · subst hstar
        rw [List.map_cons, show termOf '*' = .star .any from rfl]
        simp only [seqEnds, List.mem_flatMap]
        rw [globMatch_star]
        constructor
        · rintro ⟨k, hk, hlen⟩
          rw [mem_ends_star_any cs hclean i k hi] at hk
          have hglob : globMatch p2 (cs.drop k) = true := by
            rw [← ih p2 k (by simp at hm; omega) (by omega)]
            exact hlen
          refine ⟨k - i, ?_, ?_⟩
          · rw [List.length_drop]; omega
          · rw [List.drop_drop]
            have hki : i + (k - i) = k := by omega
            rw [hki]; exact hglob
        · rintro ⟨k2, hk2, hglob⟩
          rw [List.length_drop] at hk2
          rw [List.drop_drop] at hglob
          refine ⟨i + k2, ?_, ?_⟩
          · rw [mem_ends_star_any cs hclean i (i + k2) hi]; omega
          · rw [ih p2 (i + k2) (by simp at hm; omega) (by omega)]
            exact hglob
      · rw [List.map_cons]
        simp only [seqEnds, List.mem_flatMap]
        by_cases hq : c = '?'
        · subst hq
          rw [show termOf '?' = .any from rfl]
          by_cases hlt : i < cs.length
          · have hnt : isLineTerminator cs[i] = false :=
              hclean cs[i] (List.getElem_mem hlt)
            have hends : Regex.ends cs .any i = [i + 1] := by
              simp [Regex.ends, hlt, hnt]
            rw [hends]
            rw [List.drop_eq_getElem_cons hlt]
            have hstep : ∀ (x : Char) (xs : List Char),
                globMatch ('?' :: p2) (x :: xs) = globMatch p2 xs := by
              intro x xs; rw [globMatch]; simp
            rw [hstep]
            simp only [List.mem_singleton]
            constructor
            · rintro ⟨k, rfl, hlen⟩
              rw [← ih p2 (i + 1) (by simp at hm; omega) (by omega)]
              exact hlen
            · intro hglob
              exact ⟨i + 1, rfl, (ih p2 (i + 1) (by simp at hm; omega) (by omega)).mpr hglob⟩
          · have hieq : i = cs.length := by omega
            have hends : Regex.ends cs .any i = [] := by simp [Regex.ends, hlt]
            have hdrop : cs.drop i = [] := by
              rw [List.drop_eq_nil_iff]; omega
            have hg : globMatch ('?' :: p2) ([] : List Char) = false := by
              rw [globMatch]; simp
            rw [hends, hdrop, hg]
            simp
        · have ht : termOf c = .char c := by simp [termOf, hstar, hq]
          rw [ht]
          by_cases hlt : i < cs.length
          · rw [List.drop_eq_getElem_cons hlt]
            have hstep : ∀ (x : Char) (xs : List Char),
                globMatch (c :: p2) (x :: xs) = (decide (c = x) && globMatch p2 xs) := by
              intro x xs; rw [globMatch]; simp [hstar, hq]
            rw [hstep]
            by_cases hc : cs[i] = c
            · have hends : Regex.ends cs (.char c) i = [i + 1] := by
                simp [Regex.ends, hlt, hc]
              have hcx : decide (c = cs[i]) = true := by
                simp [hc]
              rw [hends, hcx]
              simp only [List.mem_singleton, Bool.true_and]
              constructor
              · rintro ⟨k, rfl, hlen⟩
                rw [← ih p2 (i + 1) (by simp at hm; omega) (by omega)]
                exact hlen
              · intro hglob
                exact ⟨i + 1, rfl, (ih p2 (i + 1) (by simp at hm; omega) (by omega)).mpr hglob⟩
            · have hends : Regex.ends cs (.char c) i = [] := by
                simp [Regex.ends, hlt, hc]
              have hcx : decide (c = cs[i]) = false := by
                simp
                intro h
                exact absurd h.symm hc
              rw [hends, hcx]
              simp
          · have hends : Regex.ends cs (.char c) i = [] := by simp [Regex.ends, hlt]
            have hdrop : cs.drop i = [] := by
              rw [List.drop_eq_nil_iff]; omega
            have hg : globMatch (c :: p2) ([] : List Char) = false := by
              rw [globMatch]; simp [hstar]
            rw [hends, hdrop, hg]
            simp

theorem mem_ends_start (cs : List Char) (i k : Nat) :
    k ∈ Regex.ends cs (.cat Regex.eps Regex.bol) i ↔ i = 0 ∧ k = 0 := by
  simp only [Regex.ends, List.flatMap_cons, List.flatMap_nil, List.append_nil]
  by_cases h : i = 0
  · subst h; simp
  · simp [h]

theorem mem_ends_eol (cs : List Char) (k j : Nat) :
    j ∈ Regex.ends cs Regex.eol k ↔ k = cs.length ∧ j = k := by
  simp only [Regex.ends]
  by_cases h : k = cs.length
  · subst h; simp
  · simp [h]

theorem rtest_globRegex_iff_seq (p cs : List Char) :
    rtest (globRegex p) cs = true ↔ cs.length ∈ seqEnds cs (p.map termOf) 0 := by
  constructor
  · intro h
    simp only [rtest, List.any_eq_true, List.mem_range] at h
    obtain ⟨i, hi, hne⟩ := h
    rw [Bool.not_eq_eq_eq_not, Bool.not_true] at hne
    obtain ⟨j, hj⟩ := List.exists_mem_of_ne_nil (Regex.ends cs (globRegex p) i) (by
      intro hnil
      rw [hnil] at hne
      simp at hne)
    rw [show globRegex p = Regex.cat (globRegexCore p) Regex.eol from rfl,
      mem_ends_cat] at hj
    obtain ⟨k, hk, hj2⟩ := hj
    rw [mem_ends_eol] at hj2
    obtain ⟨hklen, rfl⟩ := hj2
    subst hklen
    rw [show globRegexCore p = (p.map termOf).foldl Regex.cat (.cat .eps .bol) from rfl,
      mem_ends_foldl] at hk
    obtain ⟨k0, hk0, hseq⟩ := hk
    rw [mem_ends_start] at hk0
    obtain ⟨rfl, rfl⟩ := hk0
    exact hseq
  · intro hseq
    have hmem : cs.length ∈ Regex.ends cs (globRegex p) 0 := by
      rw [show globRegex p = Regex.cat (globRegexCore p) Regex.eol from rfl,
        mem_ends_cat]
      refine ⟨cs.length, ?_, ?_⟩
      · rw [show globRegexCore p = (p.map termOf).foldl Regex.cat (.cat .eps .bol)
          from rfl, mem_ends_foldl]
        exact ⟨0, (mem_ends_start cs 0 0).mpr ⟨rfl, rfl⟩, hseq⟩
      · rw [mem_ends_eol]
        exact ⟨rfl, rfl⟩
    simp only [rtest, List.any_eq_true, List.mem_range]
    refine ⟨0, by omega, ?_⟩
    rw [Bool.not_eq_eq_eq_not, Bool.not_true]
    by_contra hemp
    rw [Bool.not_eq_false, List.isEmpty_iff] at hemp
    rw [hemp] at hmem
    simp at hmem

theorem rtest_globRegex (p cs : List Char)
    (hclean : ∀ c ∈ cs, isLineTerminator c = false) :
    rtest (globRegex p) cs = globMatch p cs := by
  have hiff : rtest (globRegex p) cs = true ↔ globMatch p cs = true := by
    rw [rtest_globRegex_iff_seq]
    have hsg := seqEnds_glob cs hclean (cs.length + p.length) p 0 (by omega) (by omega)
    rw [List.drop_zero] at hsg
    exact hsg
  cases hb : globMatch p cs with
  | true => exact hiff.mpr hb
  | false =>
    rw [Bool.eq_false_iff]
    intro h
    rw [hb] at hiff
    exact absurd (hiff.mp h) (by simp)

theorem patternTest_eq_globMatch (p : String) (hp : ∀ c ∈ p.data, GoodChar c)
    (s : String) (hs : ∀ c ∈ s.data, isLineTerminator c = false) :
    patternTest p s = globMatch p.data s.data := by
  unfold patternTest
  rw [createRegexFromPattern_good p hp]
  exact rtest_globRegex p.data s.data hs

theorem globMatch_literal :
    ∀ (p s : List Char), (∀ c ∈ p, c ≠ '*' ∧ c ≠ '?') →
      (globMatch p s = true ↔ s = p) := by
  intro p
  induction p with
  | nil =>
    intro s _
    simp [globMatch, List.isEmpty_iff]
  | cons c p2 ih =>
    intro s hp
    obtain ⟨hs, hq⟩ := hp c (List.mem_cons_self c p2)
    have hp2 : ∀ x ∈ p2, x ≠ '*' ∧ x ≠ '?' := fun x hx => hp x (List.mem_cons_of_mem _ hx)
    cases s with
    | nil =>
      have hg : globMatch (c :: p2) ([] : List Char) = false := by
        rw [globMatch]; simp [hs]
      simp [hg]
    | cons d s2 =>
      have hg : globMatch (c :: p2) (d :: s2) = (decide (c = d) && globMatch p2 s2) := by
        rw [globMatch]; simp [hs, hq]
      rw [hg]
      rw [Bool.and_eq_true, decide_eq_true_eq, ih s2 hp2]
      constructor
      · rintro ⟨rfl, rfl⟩; rfl
      · intro h
        injection h with h1 h2
        exact ⟨h1.symm, h2⟩

/-- For a pattern with no `*` and no `?`, the parsed regex is a chain of
literal character atoms, whose only accepted candidate suffix is the pattern
itself. Line terminators and astral characters play no role here, since no
Dot atom is compiled. -/
theorem seqEnds_literal (cs : List Char) :
    ∀ (p : List Char), (∀ c ∈ p, c ≠ '*' ∧ c ≠ '?') →
    ∀ i : Nat, i ≤ cs.length →
      (cs.length ∈ seqEnds cs (p.map termOf) i ↔ cs.drop i = p) := by
  intro p
  induction p with
  | nil =>
    intro _ i hi
    simp only [List.map_nil, seqEnds, List.mem_singleton]
    rw [List.drop_eq_nil_iff]
    omega
  | cons c p2 ih =>
    intro hp i hi
    obtain ⟨hs, hq⟩ := hp c (List.mem_cons_self c p2)
    have hp2 : ∀ x ∈ p2, x ≠ '*' ∧ x ≠ '?' := fun x hx => hp x (List.mem_cons_of_mem _ hx)
    have ht : termOf c = .char c := by simp [termOf, hs, hq]
    rw [List.map_cons, ht]
    simp only [seqEnds, List.mem_flatMap]
    by_cases hlt : i < cs.length
    · rw [List.drop_eq_getElem_cons hlt]
      by_cases hc : cs[i] = c
      · have hends : Regex.ends cs (.char c) i = [i + 1] := by
          simp [Regex.ends, hlt, hc]
        rw [hends]
        simp only [List.mem_singleton]
        constructor
        · rintro ⟨k, rfl, hlen⟩
          rw [hc, (ih hp2 (i + 1) (by omega)).mp hlen]
        · intro h
          injection h with h1 h2
          exact ⟨i + 1, rfl, (ih hp2 (i + 1) (by omega)).mpr h2⟩
      · have hends : Regex.ends cs (.char c) i = [] := by
          simp [Regex.ends, hlt, hc]
        rw [hends]
        simp only [List.not_mem_nil, false_and, exists_false, false_iff]
        intro h
        injection h with h1 h2
        exact hc h1
    · have hends : Regex.ends cs (.char c) i = [] := by simp [Regex.ends, hlt]
      have hdrop : cs.drop i = [] := by
        rw [List.drop_eq_nil_iff]; omega
      rw [hends, hdrop]
      simp

/-! ## Claim theorems: pattern matcher -/

/-- Counterexample to claim C1 as stated: glob-lite semantics say `?` matches
exactly one character, any character, but the program compiles `?` to a
flag-less regex Dot, which does not match a line terminator: the predicate
for `?` rejects the one-character candidate consisting of a newline. -/
theorem patternTest_newline_counterexample :
    patternTest "?" "\n" = false ∧ globMatch "?".data "\n".data = true := by
  constructor
  · decide
  · show globMatch ['?'] ['\n'] = true
    rw [globMatch]
    simp [globMatch]

/-- Claim C1 (amended): over patterns built from `.`, `*`, `?` and ordinary
literal characters (characters the regex engine gives no special meaning),
and candidates containing no line terminator and no character outside the
Basic Multilingual Plane, the compiled predicate agrees exactly with the
anchored glob-lite semantics `globMatch`, in particular on the spec's
examples. The BMP bound records the claim's scope: a flag-less JS regex walks
UTF-16 code units, so its Dot consumes only half of an astral character; the
scalar-based model needs only the line-terminator bound. -/
theorem patternTest_glob_refinement :
    (∀ p : String, (∀ c ∈ p.data, GoodChar c) → ∀ s : String,
        (∀ c ∈ s.data, isLineTerminator c = false) →
        (∀ c ∈ s.data, c.toNat < 65536) →
        patternTest p s = globMatch p.data s.data) ∧
    patternTest "*.log" "test.log" = true ∧
    patternTest "*.log" "a.b.log" = true ∧
    patternTest "*.log" "log" = false ∧
    patternTest "*.log" "test.logx" = false ∧
    patternTest "node_modules" "node_modules" = true ∧
    patternTest "node_modules" "node_modules2" = false ∧
    patternTest "node_modules" "my_node_modules" = false :=
  ⟨fun p hp s hs _ => patternTest_eq_globMatch p hp s hs, by decide, by decide,
    by decide, by decide, by decide, by decide, by decide⟩

/-- Witness for the amended C1 at a concrete good pattern and clean
candidate. -/
theorem patternTest_glob_refinement_witness :
    patternTest "*.log" "hello.log" = globMatch "*.log".data "hello.log".data :=
  patternTest_glob_refinement.1 "*.log" (by decide) "hello.log" (by decide) (by decide)

/-- Counterexample to claim C2 as stated: the pattern `a+` contains none of
`.`, `*`, `?`, yet its compiled predicate matches `aa`, a string different
from the literal pattern (the untranslated `+` acts as a regex quantifier). -/
theorem patternTest_plus_counterexample :
    patternTest "a+" "aa" = true ∧ ("aa" : String) ≠ "a+" := by
  constructor
  · decide
  · decide

/-- Claim C2 (amended): for a non-empty pattern containing none of `.`, `*`,
`?` and no other regex metacharacter, the compiled predicate matches exactly
the literal pattern string and nothing else. No Dot atom is compiled from
such a pattern, so this holds for every candidate string. -/
theorem patternTest_literal_exact (p : String) (_hne : p ≠ "")
    (hp : ∀ c ∈ p.data, c ∉ jsMeta) (s : String) :
    patternTest p s = true ↔ s = p := by
  have hg : ∀ c ∈ p.data, GoodChar c := fun c hc => Or.inr (Or.inr (Or.inr (hp c hc)))
  have hns : ∀ c ∈ p.data, c ≠ '*' ∧ c ≠ '?' := by
    intro c hc
    constructor
    · intro h; exact hp c hc (by rw [h]; decide)
    · intro h; exact hp c hc (by rw [h]; decide)
  unfold patternTest
  rw [createRegexFromPattern_good p hg]
  rw [rtest_globRegex_iff_seq]
  rw [seqEnds_literal s.data p.data hns 0 (by omega)]
  rw [List.drop_zero]
  constructor
  · intro h
    exact String.ext h
  · intro h
    rw [h]

/-- Witness for the amended C2 at a concrete literal pattern. -/
theorem patternTest_literal_exact_witness :
    patternTest "node_modules" "node_modules" = true ↔
      ("node_modules" : String) = "node_modules" :=
  patternTest_literal_exact "node_modules" (by decide) (by decide) "node_modules"

/-- Counterexample to claim C3 as stated: compilation is not total — on the
pattern `(` the constructed regex source `^($` is rejected by `new RegExp`
(unterminated group), so `createRegexFromPattern` yields no predicate. -/
theorem createRegexFromPattern_paren_counterexample :
    (createRegexFromPattern "(").toOption = none := by
  rfl

/-- Claim C3 (amended): compilation succeeds without error on every pattern
whose characters are `.`, `*`, `?` or regex non-metacharacters (on which the
other characters behave as literal text, per the C1 refinement); it is not
total over all strings, failing for instance on `(`. -/
theorem createRegexFromPattern_total_on_good (p : String)
    (hp : ∀ c ∈ p.data, GoodChar c) :
    (createRegexFromPattern p).toOption.isSome = true := by
  rw [createRegexFromPattern_good p hp]
  rfl

/-- Witness for the amended C3 at a concrete good pattern. -/
theorem createRegexFromPattern_total_on_good_witness :
    (createRegexFromPattern "he*l?o.txt").toOption.isSome = true :=
  createRegexFromPattern_total_on_good "he*l?o.txt" (by decide)

/-! ## Lemmas about the walker -/

/-- Rendering a single directory child: one connector line plus the recursive
rendering of the child with the extended prefix. -/
theorem renderChildren_single_dir (rec : String → String → Bool → Nat → String)
    (pre : String) (depth : Nat) (nm pth : String) :
    renderChildren rec pre depth [DirectoryItem.mk nm pth true] =
      pre ++ "└── " ++ "📁 " ++ nm ++ "\n" ++ rec pth (pre ++ "    ") true (depth + 1) :=
  rfl

/-- Every level of the unbounded chain ends in the depth-limit marker line,
whatever fuel remains. -/
theorem chainFs_marker (lc : String → String → Int) :
    ∀ (fuel : Nat) (dirPath pre : String) (depth : Nat),
      ∃ a : String,
        generateTreeAux lc [] chainFs fuel dirPath pre true depth =
          a ++ "└── [MAX DEPTH REACHED]\n" := by
  intro fuel
  induction fuel with
  | zero => exact fun dirPath pre depth => ⟨pre, rfl⟩
  | succ f ih =>
    intro dirPath pre depth
    by_cases h : depth > 50
    · exact ⟨pre, by simp only [generateTreeAux, if_pos h]⟩
    · obtain ⟨a, ha⟩ := ih (pathJoin dirPath "d") (pre ++ "    ") (depth + 1)
      have e1 : generateTreeAux lc [] chainFs (f + 1) dirPath pre true depth =
          pre ++ "└── " ++ "📁 " ++ "d" ++ "\n" ++
            generateTreeAux lc [] chainFs f (pathJoin dirPath "d") (pre ++ "    ") true
              (depth + 1) := by
        simp only [generateTreeAux, if_neg h]
        rfl
      refine ⟨pre ++ "└── " ++ "📁 " ++ "d" ++ "\n" ++ a, ?_⟩
      rw [e1, ha]
      simp [String.append_assoc]


/-- Rendering depends on the recursive function only through its values at
the next depth. -/
theorem renderChildren_congr (f g : String → String → Bool → Nat → String)
    (pre : String) (depth : Nat) (items : List DirectoryItem)
    (h : ∀ (p2 pre2 : String) (l2 : Bool), f p2 pre2 l2 (depth + 1) = g p2 pre2 l2 (depth + 1)) :
    renderChildren f pre depth items = renderChildren g pre depth items := by
  unfold renderChildren
  congr 1
  apply List.map_congr_left
  intro pr _
  by_cases hd : pr.2.isDirectory
  · simp only [hd, if_true, h]
  · rw [Bool.not_eq_true] at hd
    simp [hd]

/-- Claim C5: for any directory whose listing succeeds, with a consistent
locale comparison (total and transitive), the surviving children are sorted
with every directory before every file and with names in `lc`-order inside
each of the two groups, and `generateTree` renders exactly those children in
that order. -/
theorem generateTree_sibling_order
    (lc : String → String → Int)
    (htot : ∀ a b : String, lc a b ≤ 0 ∨ lc b a ≤ 0)
    (htrans : ∀ a b c : String, lc a b ≤ 0 → lc b c ≤ 0 → lc a c ≤ 0)
    (pats : List Regex) (fs : FileSystem) (dirPath pre : String)
    (isLast : Bool) (depth : Nat) (items : List DirEntry)
    (hfs : fs dirPath = some items) (hdepth : depth ≤ 50) :
    (treeChildren lc pats fs dirPath).Pairwise
      (fun a b => (b.isDirectory = true → a.isDirectory = true) ∧
        (a.isDirectory = b.isDirectory → lc a.name b.name ≤ 0)) ∧
    generateTree lc pats fs dirPath pre isLast depth =
      renderChildren (fun p2 pre2 l2 d2 => generateTree lc pats fs p2 pre2 l2 d2)
        pre depth (treeChildren lc pats fs dirPath) := by
  have htotI : IsTotal DirectoryItem (itemLE lc) := by
    constructor
    intro a b
    unfold itemLE itemCompare
    rcases ha : a.isDirectory <;> rcases hb : b.isDirectory <;> simp [ha, hb] <;>
      exact htot a.name b.name
  have htransI : IsTrans DirectoryItem (itemLE lc) := by
    constructor
    intro a b c hab hbc
    unfold itemLE itemCompare at hab hbc ⊢
    rcases ha : a.isDirectory <;> rcases hb : b.isDirectory <;>
      rcases hc : c.isDirectory <;> simp_all <;>
      exact htrans a.name b.name c.name hab hbc
  constructor
  · have hsorted : List.Sorted (itemLE lc) (treeChildren lc pats fs dirPath) := by
      simp only [treeChildren, hfs]
      exact List.sorted_insertionSort (itemLE lc) (filteredItems pats dirPath items)
    refine hsorted.imp ?_
    intro a b hab
    constructor
    · intro hbdir
      by_contra hadir
      rw [Bool.not_eq_true] at hadir
      unfold itemLE itemCompare at hab
      rw [hadir, hbdir] at hab
      simp at hab
    · intro hsame
      unfold itemLE itemCompare at hab
      rcases ha : a.isDirectory
      · rw [ha] at hsame hab
        rw [← hsame] at hab
        simpa using hab
      · rw [ha] at hsame hab
        rw [← hsame] at hab
        simpa using hab
  · unfold generateTree
    have h51 : 51 - depth = (50 - depth) + 1 := by omega
    rw [h51]
    simp only [generateTreeAux, if_neg (by omega : ¬ depth > 50), hfs]
    simp only [treeChildren, hfs]
    apply renderChildren_congr
    intro p2 pre2 l2
    have h50 : 51 - (depth + 1) = 50 - depth := by omega
    rw [h50]

/-- Witness for C5 at a concrete comparison, rule list and snapshot. -/
theorem generateTree_sibling_order_witness :
    (treeChildren (fun _ _ => 0) [] fs6 ".").Pairwise
      (fun a b => (b.isDirectory = true → a.isDirectory = true) ∧
        (a.isDirectory = b.isDirectory → (fun _ _ => (0 : Int)) a.name b.name ≤ 0)) ∧
    generateTree (fun _ _ => 0) [] fs6 "." "" true 0 =
      renderChildren
        (fun p2 pre2 l2 d2 => generateTree (fun _ _ => 0) [] fs6 p2 pre2 l2 d2)
        "" 0 (treeChildren (fun _ _ => 0) [] fs6 ".") :=
  generateTree_sibling_order (fun _ _ => 0) (fun _ _ => Or.inl (by simp))
    (fun _ _ _ _ _ => by simp) [] fs6 "." "" true 0
    [DirEntry.mk "bad" true, DirEntry.mk "good.txt" false] rfl (by omega)


/-- The two possible outputs of the filtering example, depending on how the
locale comparison orders `package.json` against `README.md`. -/
theorem generateTree_fs7_cases (lc : String → String → Int) :
    generateTree lc pats7 fs7 "." "" true 0 =
        "├── 📁 src\n│   └── 📄 index.ts\n├── 📄 package.json\n└── 📄 README.md\n" ∨
    generateTree lc pats7 fs7 "." "" true 0 =
        "├── 📁 src\n│   └── 📄 index.ts\n├── 📄 README.md\n└── 📄 package.json\n" := by
  have hsplit : generateTree lc pats7 fs7 "." "" true 0 =
      renderChildren (generateTreeAux lc pats7 fs7 50) "" 0
        (sortedItems lc (filteredItems pats7 "." items7)) := rfl
  have hfil : filteredItems pats7 "." items7 =
      [DirectoryItem.mk "src" "./src" true,
       DirectoryItem.mk "package.json" "./package.json" false,
       DirectoryItem.mk "README.md" "./README.md" false] := by decide
  have hunf : sortedItems lc (filteredItems pats7 "." items7) =
      List.orderedInsert (itemLE lc) (DirectoryItem.mk "src" "./src" true)
        (List.orderedInsert (itemLE lc) (DirectoryItem.mk "package.json" "./package.json" false)
          [DirectoryItem.mk "README.md" "./README.md" false]) := by
    rw [hfil]; rfl
  have hsp : itemLE lc (DirectoryItem.mk "src" "./src" true)
      (DirectoryItem.mk "package.json" "./package.json" false) := by
    simp [itemLE, itemCompare]
  have hsr : itemLE lc (DirectoryItem.mk "src" "./src" true)
      (DirectoryItem.mk "README.md" "./README.md" false) := by
    simp [itemLE, itemCompare]
  by_cases h : itemLE lc (DirectoryItem.mk "package.json" "./package.json" false)
      (DirectoryItem.mk "README.md" "./README.md" false)
  · left
    rw [hsplit, hunf, List.orderedInsert, if_pos h, List.orderedInsert, if_pos hsp]
    rfl
  · right
    rw [hsplit, hunf, List.orderedInsert, if_neg h, List.orderedInsert,
      List.orderedInsert, if_pos hsr]
    rfl

/-- Claim C7: in the spec's example directory under ignore rules
`node_modules` and `*.log`, the rendered tree (for any locale comparison)
contains entry lines for `src`, `index.ts`, `package.json`, `README.md`, and
contains `node_modules` and `test.log` nowhere — the ignored directory's
whole subtree is absent. -/
theorem generateTree_filters_ignored (lc : String → String → Int) :
    containsStr (generateTree lc pats7 fs7 "." "" true 0) "📁 src\n" ∧
    containsStr (generateTree lc pats7 fs7 "." "" true 0) "📄 index.ts\n" ∧
    containsStr (generateTree lc pats7 fs7 "." "" true 0) "📄 package.json\n" ∧
    containsStr (generateTree lc pats7 fs7 "." "" true 0) "📄 README.md\n" ∧
    ¬ containsStr (generateTree lc pats7 fs7 "." "" true 0) "node_modules" ∧
    ¬ containsStr (generateTree lc pats7 fs7 "." "" true 0) "test.log" := by
  rcases generateTree_fs7_cases lc with h | h <;> rw [h] <;>
    exact ⟨by decide, by decide, by decide, by decide, by decide, by decide⟩

/-! ## Claim theorems: walker behaviour -/

/-- Claim C4: at depth strictly above 50 `generateTree` renders exactly the
prefixed depth-limit marker leaf, independently of the filesystem, so the
walk terminates on arbitrary (even cyclic) structures; and on the unbounded
single-child chain the deepest rendered line is the depth-limit marker. -/
theorem generateTree_depth_limit :
    (∀ (lc : String → String → Int) (pats : List Regex) (fs : FileSystem)
        (dirPath pre : String) (isLast : Bool) (depth : Nat), depth > 50 →
        generateTree lc pats fs dirPath pre isLast depth =
          pre ++ "└── [MAX DEPTH REACHED]\n") ∧
    (∀ lc : String → String → Int,
        ∃ a : String,
          generateTree lc [] chainFs "." "" true 0 =
            a ++ "└── [MAX DEPTH REACHED]\n") := by
  constructor
  · intro lc pats fs dirPath pre isLast depth h
    unfold generateTree
    have h0 : 51 - depth = 0 := by omega
    rw [h0]
    rfl
  · intro lc
    exact chainFs_marker lc 51 "." "" 0

/-- Witness for C4 at concrete inputs: depth 51 over the chain filesystem
renders exactly the marker leaf. -/
theorem generateTree_depth_limit_witness :
    generateTree (fun _ _ => 0) [] chainFs "x" "PRE" true 51 =
      "PRE" ++ "└── [MAX DEPTH REACHED]\n" :=
  generateTree_depth_limit.1 (fun _ _ => 0) [] chainFs "x" "PRE" true 51 (by omega)

/-- Claim C6: a failed listing renders exactly the prefixed unreadable-marker
leaf and returns normally, and (concrete scenario) an unreadable subdirectory
does not prevent its sibling from rendering. -/
theorem generateTree_unreadable :
    (∀ (lc : String → String → Int) (pats : List Regex) (fs : FileSystem)
        (dirPath pre : String) (isLast : Bool) (depth : Nat),
        fs dirPath = none → depth ≤ 50 →
        generateTree lc pats fs dirPath pre isLast depth =
          pre ++ "└── [ERROR: Cannot read directory]\n") ∧
    (∀ lc : String → String → Int,
        generateTree lc [] fs6 "." "" true 0 =
          "├── 📁 bad\n│   └── [ERROR: Cannot read directory]\n└── 📄 good.txt\n") := by
  constructor
  · intro lc pats fs dirPath pre isLast depth hfs hd
    unfold generateTree
    have h51 : 51 - depth = (50 - depth) + 1 := by omega
    rw [h51]
    simp only [generateTreeAux, if_neg (by omega : ¬ depth > 50), hfs]
  · intro lc
    rfl

/-- Witness for C6: a root whose listing fails renders only the marker. -/
theorem generateTree_unreadable_witness :
    generateTree (fun _ _ => 0) [] (fun _ => none) "." "" true 0 =
      "" ++ "└── [ERROR: Cannot read directory]\n" :=
  generateTree_unreadable.1 (fun _ _ => 0) [] (fun _ => none) "." "" true 0 rfl
    (by omega)

/-- Claim C8: with an empty list of compiled ignore rules, `shouldIgnore`
rejects nothing, for every entry name and path. -/
theorem shouldIgnore_nil (itemName itemPath : String) :
    shouldIgnore [] itemName itemPath = false :=
  rfl

/-- Claim C9: the walk is deterministic — two runs over the same snapshot
with the same comparison, rules, path, prefix, flag and depth produce
byte-identical output. -/
theorem generateTree_deterministic
    (lc lc2 : String → String → Int) (pats pats2 : List Regex)
    (fs fs2 : FileSystem) (dirPath dirPath2 pre pre2 : String)
    (isLast isLast2 : Bool) (depth depth2 : Nat)
    (hlc : lc = lc2) (hpats : pats = pats2) (hfs : fs = fs2)
    (hdp : dirPath = dirPath2) (hpre : pre = pre2) (hl : isLast = isLast2)
    (hd : depth = depth2) :
    generateTree lc pats fs dirPath pre isLast depth =
      generateTree lc2 pats2 fs2 dirPath2 pre2 isLast2 depth2 := by
  subst hlc hpats hfs hdp hpre hl hd
  rfl

/-- Witness for C9 at concrete inputs. -/
theorem generateTree_deterministic_witness :
    generateTree (fun _ _ => 0) [] fs6 "." "" true 0 =
      generateTree (fun _ _ => 0) [] fs6 "." "" true 0 :=
  generateTree_deterministic (fun _ _ => 0) (fun _ _ => 0) [] [] fs6 fs6 "." "."
    "" "" true true 0 0 rfl rfl rfl rfl rfl rfl rfl

/-- Claim C10: a directory whose listing succeeds but whose children are all
filtered away (or absent) contributes no output at all. -/
theorem generateTree_empty_dir
    (lc : String → String → Int) (pats : List Regex) (fs : FileSystem)
    (dirPath pre : String) (isLast : Bool) (depth : Nat)
    (items : List DirEntry)
    (hfs : fs dirPath = some items)
    (hfilter : filteredItems pats dirPath items = [])
    (hdepth : depth ≤ 50) :
    generateTree lc pats fs dirPath pre isLast depth = "" := by
  unfold generateTree
  have h51 : 51 - depth = (50 - depth) + 1 := by omega
  rw [h51]
  simp only [generateTreeAux, if_neg (by omega : ¬ depth > 50), hfs, hfilter]
  rfl

/-- Witness for C10: an empty root directory renders as the empty string. -/
theorem generateTree_empty_dir_witness :
    generateTree (fun _ _ => 0) [] fsEmpty "." "" true 0 = "" :=
  generateTree_empty_dir (fun _ _ => 0) [] fsEmpty "." "" true 0 [] rfl rfl
    (by omega)
